import Mathlib

/-!
# zackup: the job queue (src/app/queue.go)

A shallow embedding of the worker-pool scheduler and of its per-host
duplicate detection, followed by the properties established about it.

Conventions of the embedding

* An instant (Go time.Time) is the number of nanoseconds elapsed since Go's
  zero time, so the zero time is 0. Every instant the queue ever holds is
  either the zero value of a fresh struct field or a reading of time.Now(),
  hence never earlier than the zero time.
* A quit channel is identified by a natural number; a nil slot of the
  backing array of q.workers is none.
* The slice q.workers is a backing array together with a length.
* Goroutines are explicit: the worker loops started by newWorker, the
  newWorker calls launched by Resize with a go statement and not yet
  executed, and the Enqueue calls that have incremented the job counter and
  not yet delivered their job to the channel.
* Code executed while the queue's mutex is held is one atomic action.
-/

namespace Zackup

/-! ## Time -/

/-! An instant is a natural number: the nanoseconds elapsed since the zero
time. The functions of Go's time.Time that the queue uses follow. -/

/-- Go: time.Minute, in nanoseconds. -/
def minute : Nat := 60 * 1000000000

/-- Go: time.Second, in nanoseconds. -/
def second : Nat := 1000000000

/-- Source: const duplicateDetectionTime = 5 * time.Minute. -/
def duplicateDetectionTime : Nat := 5 * minute

/-- Source: const maxParallelity = 255. -/
def maxParallelity : Int := 255

/-- Go: t.IsZero(). -/
def Time.IsZero (t : Nat) : Bool := decide (t = 0)

/-- Go: t.After(u). -/
def Time.After (t u : Nat) : Bool := decide (u < t)

/-- Go: t.Before(u). -/
def Time.Before (t u : Nat) : Bool := decide (t < u)

/-- Go: t.Equal(u). -/
def Time.Equal (t u : Nat) : Bool := decide (t = u)

/-- Go: t.Add(d). -/
def Time.Add (t : Nat) (d : Nat) : Nat := t + d

/-! ## Duplicate detection -/

/-- Source: type lastSeenEntry struct { start, finish time.Time }. -/
structure lastSeenEntry where
  start : Nat
  finish : Nat
deriving DecidableEq, Repr

/-- Source: func (ent *lastSeenEntry) recent(ref *time.Time) bool. -/
def lastSeenEntry.recent (ent : lastSeenEntry) (ref : Nat) : Bool :=
  if Time.IsZero ent.start then
    false
  else
    let finPlus := Time.Add ent.finish duplicateDetectionTime
    Time.After ent.start ent.finish || Time.Before ref finPlus || Time.Equal ref finPlus

/-- The part of config.JobConfig the queue looks at: the host of the job. -/
structure JobConfig where
  host : String
deriving DecidableEq, Repr

/-- Source: job.Host(). -/
def JobConfig.Host (job : JobConfig) : String := job.host

/-- Source: map[string]*lastSeenEntry. -/
abbrev LastSeen := String → Option lastSeenEntry

/-- Source: checkDuplicateAndRun, the statements between q.Lock() and
q.Unlock(): returns the value of perform and the updated map. -/
def checkDuplicateAndRunLocked (lastSeen : LastSeen) (host : String) (now : Nat) :
    Bool × LastSeen :=
  match lastSeen host with
  | none =>
    (true, fun h => if h = host then some { start := now, finish := 0 } else lastSeen h)
  | some ent =>
    if !ent.recent now then
      (true, fun h => if h = host then some { ent with start := now } else lastSeen h)
    else
      (false, lastSeen)

/-- Source: ent.finish = time.Now(), on the entry of the host (entries are
never removed from the map, so ent is the entry the map holds). -/
def recordFinish (lastSeen : LastSeen) (host : String) (fin : Nat) : LastSeen :=
  fun h => if h = host then (lastSeen h).map (fun ent => { ent with finish := fin }) else lastSeen h

/-! ## The queue -/

/-- Source: type quitCh chan struct{}; a channel is known by its identity. -/
abbrev quitCh := Nat

/-- A Go slice of quit channels: backing array (its length is the capacity)
and length. -/
structure Slice where
  arr : List (Option quitCh)
  len : Nat
deriving DecidableEq, Repr

/-- The elements of the slice, s[0], ..., s[len-1]. -/
def Slice.toList (s : Slice) : List (Option quitCh) := s.arr.take s.len

/-- Go: append(s, x). In place while the capacity allows it, otherwise into a
new array holding the elements and x. -/
def Slice.append (s : Slice) (x : Option quitCh) : Slice :=
  if s.len < s.arr.length then
    { arr := s.arr.set s.len x, len := s.len + 1 }
  else
    { arr := s.toList ++ [x], len := s.len + 1 }

/-- Where a worker goroutine stands in the loop of newWorker. -/
inductive Phase
  | idle
  | claimed (job : JobConfig)
  | performing (job : JobConfig)
  | returned
  | stopped
deriving DecidableEq, Repr

/-- A worker goroutine: its quit channel and its position in the loop. -/
structure Worker where
  quit : quitCh
  phase : Phase
deriving DecidableEq, Repr

/-- Source: type queue struct, together with the goroutines and channels it
communicates with. -/
structure queue where
  workers : Slice
  workerGroup : Int
  jobs : List JobConfig
  jobsCap : Nat
  jobGroup : Int
  lastSeen : LastSeen
  closed : List quitCh
  nextCh : Nat
  goroutines : List Worker
  spawning : Nat
  sending : List JobConfig
  performed : List JobConfig
  duplicateLog : List String

/-- Source: func (q *queue) newWorker(). -/
def newWorker (q : queue) : queue :=
  let quit := q.nextCh
  { q with
    nextCh := q.nextCh + 1
    workers := q.workers.append (some quit)
    goroutines := q.goroutines ++ [{ quit := quit, phase := Phase.idle }] }

/-- The loop for i := 0; i < size; i++ { q.newWorker() }. -/
def newWorkers : Nat → queue → queue
  | 0, q => q
  | n + 1, q => newWorkers n (newWorker q)

/-- Source: func NewQueue(size int) Queue. -/
def NewQueue (size : Int) : queue :=
  let size : Int :=
    if size < 1 then 1 else if size > maxParallelity then maxParallelity else size
  let backlog := 16
  let q : queue :=
    { workers := { arr := List.replicate maxParallelity.toNat none, len := 0 }
      workerGroup := size
      jobs := []
      jobsCap := backlog
      jobGroup := 0
      lastSeen := fun _ => none
      closed := []
      nextCh := 0
      goroutines := []
      spawning := 0
      sending := []
      performed := []
      duplicateLog := [] }
  newWorkers size.toNat q

/-- Source: checkDuplicateAndRun run by one goroutine without interleaving;
now and fin are the two readings of time.Now(). -/
def checkDuplicateAndRun (q : queue) (job : JobConfig) (now fin : Nat) : queue :=
  let host := job.Host
  let r := checkDuplicateAndRunLocked q.lastSeen host now
  if r.1 then
    { q with
      performed := q.performed ++ [job]
      lastSeen := recordFinish r.2 host fin }
  else
    { q with
      lastSeen := r.2
      duplicateLog := q.duplicateLog ++ [host] }

/-- Go: close(c) for each c of a list, in order. Closing a nil channel or a
closed channel panics (none). -/
def closeAll : List quitCh → List (Option quitCh) → Option (List quitCh)
  | closed, [] => some closed
  | _, none :: _ => none
  | closed, some c :: rest => if c ∈ closed then none else closeAll (closed ++ [c]) rest

/-- Go: copy(dst, src) where dst is the slice of length dstLen at the start
of the array arr; returns the array. -/
def copyFront (arr : List (Option quitCh)) (dstLen : Nat) (src : List (Option quitCh)) :
    List (Option quitCh) :=
  let n := min dstLen src.length
  src.take n ++ arr.drop n

/-- The loop for i := range q.workers[lo:] { q.workers[lo+i] = nil }, where
count is the length of q.workers[lo:]. -/
def clearFrom (arr : List (Option quitCh)) (lo count : Nat) : List (Option quitCh) :=
  (List.range count).foldl (fun a i => a.set (lo + i) none) arr

/-- Source: Resize, the capping of newSize before the lock is taken. -/
def resizeCap (newSize : Int) : Int :=
  if newSize < 0 then 1 else if newSize > maxParallelity then maxParallelity else newSize

/-- Source: func (q *queue) Resize(newSize int); none when a close panics. -/
def Resize (q : queue) (newSize : Int) : Option queue :=
  let newSize : Int := resizeCap newSize
  let diff : Int := (q.workers.len : Int) - newSize
  if diff > 0 then
    match closeAll q.closed (q.workers.toList.take diff.toNat) with
    | none => none
    | some closed =>
      let arr1 := copyFront q.workers.arr q.workers.len (q.workers.toList.drop diff.toNat)
      let arr2 := clearFrom arr1 newSize.toNat (q.workers.len - newSize.toNat)
      some { q with closed := closed, workers := { arr := arr2, len := newSize.toNat } }
  else if diff < 0 then
    some { q with
      workerGroup := q.workerGroup + (-diff)
      spawning := q.spawning + (-diff).toNat }
  else
    some q

/-! ## Execution: the atomic actions of the goroutines -/

/-- One atomic action of some goroutine. -/
inductive Action
  | enqueueAdd (job : JobConfig)
  | enqueueSend (i : Nat)
  | dequeue (w : Nat)
  | check (w : Nat) (now : Nat)
  | finish (w : Nat) (fin : Nat)
  | jobDone (w : Nat)
  | workerQuit (w : Nat)
  | resize (newSize : Int)
  | register
deriving DecidableEq, Repr

/-- Sets the phase of worker w. -/
def setPhase (q : queue) (w : Nat) (c : quitCh) (p : Phase) : queue :=
  { q with goroutines := q.goroutines.set w { quit := c, phase := p } }

/-- The effect of an action; none when the action cannot happen in q (the
goroutine is not at that point, a channel operation would block, a reading of
time.Now() would be the zero time) or panics.

* enqueueAdd: Enqueue, q.jobGroup.Add(1)
* enqueueSend: Enqueue, q.jobs <- job (blocks while the channel is full)
* dequeue: worker, case job := <-q.jobs
* check: worker, checkDuplicateAndRun up to q.Unlock(); PerformBackup is
  entered when perform is true
* finish: worker, PerformBackup has returned, ent.finish = time.Now()
* jobDone: worker, q.jobGroup.Done()
* workerQuit: worker, case <-quit, then q.workerGroup.Done()
* resize: Resize(newSize)
* register: a newWorker call launched by Resize runs -/
def step (q : queue) : Action → Option queue
  | Action.enqueueAdd job =>
    some { q with jobGroup := q.jobGroup + 1, sending := q.sending ++ [job] }
  | Action.enqueueSend i =>
    match q.sending[i]? with
    | some job =>
      if q.jobs.length < q.jobsCap then
        some { q with sending := q.sending.eraseIdx i, jobs := q.jobs ++ [job] }
      else none
    | none => none
  | Action.dequeue w =>
    match q.goroutines[w]?, q.jobs with
    | some { quit := c, phase := Phase.idle }, job :: rest =>
      some (setPhase { q with jobs := rest } w c (Phase.claimed job))
    | _, _ => none
  | Action.check w now =>
    if now = 0 then none
    else
      match q.goroutines[w]? with
      | some { quit := c, phase := Phase.claimed job } =>
        let r := checkDuplicateAndRunLocked q.lastSeen job.Host now
        if r.1 then
          some (setPhase { q with lastSeen := r.2, performed := q.performed ++ [job] }
            w c (Phase.performing job))
        else
          some (setPhase
            { q with lastSeen := r.2, duplicateLog := q.duplicateLog ++ [job.Host] }
            w c Phase.returned)
      | _ => none
  | Action.finish w fin =>
    match q.goroutines[w]? with
    | some { quit := c, phase := Phase.performing job } =>
      some (setPhase { q with lastSeen := recordFinish q.lastSeen job.Host fin }
        w c Phase.returned)
    | _ => none
  | Action.jobDone w =>
    match q.goroutines[w]? with
    | some { quit := c, phase := Phase.returned } =>
      some (setPhase { q with jobGroup := q.jobGroup - 1 } w c Phase.idle)
    | _ => none
  | Action.workerQuit w =>
    match q.goroutines[w]? with
    | some { quit := c, phase := Phase.idle } =>
      if c ∈ q.closed then
        some (setPhase { q with workerGroup := q.workerGroup - 1 } w c Phase.stopped)
      else none
    | _ => none
  | Action.resize newSize => Resize q newSize
  | Action.register =>
    if 0 < q.spawning then some (newWorker { q with spawning := q.spawning - 1 })
    else none

/-- Runs a sequence of actions. -/
def run (q : queue) : List Action → Option queue
  | [] => some q
  | a :: rest => (step q a).bind (fun q1 => run q1 rest)

/-- The states of the queue that some execution reaches from some NewQueue. -/
def Reachable (q : queue) : Prop :=
  ∃ (size : Int) (acts : List Action), run (NewQueue size) acts = some q

/-- A worker that holds a job: dequeued and q.jobGroup.Done() not yet called. -/
def Worker.processing (g : Worker) : Bool :=
  match g.phase with
  | Phase.claimed _ => true
  | Phase.performing _ => true
  | Phase.returned => true
  | _ => false

/-- A worker inside PerformBackup for host. -/
def Worker.performingHost (host : String) (g : Worker) : Bool :=
  match g.phase with
  | Phase.performing job => decide (job.Host = host)
  | _ => false

/-- Number of jobs currently being processed by workers. -/
def queue.processingCount (q : queue) : Nat := q.goroutines.countP Worker.processing

/-- Number of runs in progress (PerformBackup entered, finish not yet
recorded) for host. -/
def queue.runsInProgress (q : queue) (host : String) : Nat :=
  q.goroutines.countP (Worker.performingHost host)

/-- The clamp of a size to [1, maxParallelity]. -/
def clampSize (n : Int) : Int :=
  if n < 1 then 1 else if n > maxParallelity then maxParallelity else n

/-! ## Example executions -/

/-- The execution in which the single worker is inside PerformBackup for
host "a", sixteen further jobs fill the channel, and one more Enqueue has
incremented the counter. -/
def blockedEnqueue : List Action :=
  [Action.enqueueAdd { host := "a" }, Action.enqueueSend 0, Action.dequeue 0, Action.check 0 1]
    ++ (List.replicate 16 [Action.enqueueAdd { host := "b" }, Action.enqueueSend 0]).flatten
    ++ [Action.enqueueAdd { host := "c" }]

/-! ## Invariants of the duplicate detection -/

/-- Every entry of the map has been started: its start is not the zero time. -/
def lastSeenStarted (m : LastSeen) : Prop :=
  ∀ h ent, m h = some ent → ent.start ≠ 0

/-- At most one run is in progress per host, and a host with a run in
progress has an active entry (start strictly after finish). -/
def runsExclusive (q : queue) : Prop :=
  ∀ H, q.runsInProgress H ≤ 1 ∧
    (0 < q.runsInProgress H → ∃ ent, q.lastSeen H = some ent ∧ ent.finish < ent.start)

/-- The execution of NewQueue(2) in which worker 0 has dequeued a job for
host "a" and entered PerformBackup at instant 5. -/
def runningHostA : List Action :=
  [Action.enqueueAdd { host := "a" }, Action.enqueueSend 0, Action.dequeue 0, Action.check 0 5]

/-! ## Well-formed worker collections -/

/-- The worker collection of a queue is well formed: the length is within the
capacity, the slots of the backing array beyond the length are nil, the
handles are non-nil, pairwise distinct and open, and every channel in use was
created by newWorker. -/
def workersWellFormed (q : queue) : Prop :=
  q.workers.len ≤ q.workers.arr.length ∧
  (∀ i, q.workers.len ≤ i → i < q.workers.arr.length → q.workers.arr[i]? = some none) ∧
  (∀ c : Nat, c ∈ q.closed → c < q.nextCh) ∧
  ∃ ws : List Nat, q.workers.toList = ws.map some ∧ ws.Nodup ∧
    ∀ c : Nat, c ∈ ws → c ∉ q.closed ∧ c < q.nextCh

/-- Three calls of Resize(255) on NewQueue(254) before any of the newWorker
goroutines they launch has run, then the three goroutines: 257 handles. -/
def overshoot : List Action :=
  [Action.resize 255, Action.resize 255, Action.resize 255,
   Action.register, Action.register, Action.register]

/-! ## Basic facts -/

theorem recent_eq_true_iff (ent : lastSeenEntry) (ref : Nat) :
    ent.recent ref = true ↔
      ent.start ≠ 0 ∧ (ent.finish < ent.start ∨ ref ≤ ent.finish + duplicateDetectionTime) := by
  unfold lastSeenEntry.recent Time.IsZero Time.After Time.Before Time.Equal Time.Add
  by_cases h : ent.start = 0
  · simp [h]
  · simp only [h, decide_False, Bool.false_eq_true, if_false, Bool.or_eq_true, decide_eq_true_eq,
      ne_eq, not_false_eq_true, true_and]
    omega

theorem recent_eq_false_iff (ent : lastSeenEntry) (ref : Nat) :
    ent.recent ref = false ↔
      (ent.start = 0 ∨ (ent.start ≤ ent.finish ∧ ent.finish + duplicateDetectionTime < ref)) := by
  rw [← Bool.not_eq_true, recent_eq_true_iff]
  by_cases h : ent.start = 0
  · simp [h]
  · simp only [h, ne_eq, not_false_eq_true, true_and, false_or]
    omega

theorem locked_absent (m : LastSeen) (host : String) (now : Nat) (h : m host = none) :
    checkDuplicateAndRunLocked m host now =
      (true, fun k => if k = host then some { start := now, finish := 0 } else m k) := by
  unfold checkDuplicateAndRunLocked
  rw [h]

theorem locked_stale (m : LastSeen) (host : String) (now : Nat) (ent : lastSeenEntry)
    (h : m host = some ent) (hr : ent.recent now = false) :
    checkDuplicateAndRunLocked m host now =
      (true, fun k => if k = host then some { start := now, finish := ent.finish } else m k) := by
  unfold checkDuplicateAndRunLocked
  rw [h]
  simp [hr]

theorem locked_recent (m : LastSeen) (host : String) (now : Nat) (ent : lastSeenEntry)
    (h : m host = some ent) (hr : ent.recent now = true) :
    checkDuplicateAndRunLocked m host now = (false, m) := by
  unfold checkDuplicateAndRunLocked
  rw [h]
  simp [hr]

/-! ## recent (C9) -/

/-- C9, as stated, fails: the entry with start and finish both at the zero
time is not recent one minute after the zero time, although that reference
time lies within five minutes of its finish. -/
theorem recent_zero_start_counterexample :
    ¬ (lastSeenEntry.recent { start := 0, finish := 0 } minute = true ↔
        ((0 : Nat) < 0 ∨ ((minute : Int) - (0 : Nat) ≤ (duplicateDetectionTime : Int)))) := by
  decide

/-- C9, amended: an entry whose start is the zero time is never recent; for
an entry whose start is not the zero time, recent holds exactly when the
entry is active (start strictly after finish) or the reference time is at
most five minutes after finish (inclusive). -/
theorem recent_iff_active_or_recently_finished (ent : lastSeenEntry) (ref : Nat) :
    (ent.start = 0 → ent.recent ref = false) ∧
    (ent.start ≠ 0 →
      (ent.recent ref = true ↔
        (ent.finish < ent.start ∨
          (ref : Int) - (ent.finish : Int) ≤ (duplicateDetectionTime : Int)))) := by
  constructor
  · intro h
    rw [recent_eq_false_iff]
    exact Or.inl h
  · intro h
    rw [recent_eq_true_iff]
    constructor
    · rintro ⟨_, h1 | h1⟩
      · exact Or.inl h1
      · right; omega
    · rintro (h1 | h1)
      · exact ⟨h, Or.inl h1⟩
      · refine ⟨h, Or.inr ?_⟩; omega

/-- Witness for C9: an entry that never started, and an entry that finished
ten seconds ago, checked at the inclusive bound. -/
theorem recent_iff_active_or_recently_finished_witness :
    lastSeenEntry.recent { start := 0, finish := 7 } 7 = false ∧
    (lastSeenEntry.recent { start := 1, finish := 10 } (10 + duplicateDetectionTime) = true ↔
      ((10 : Nat) < 1 ∨
        (((10 + duplicateDetectionTime : Nat) : Int) - ((10 : Nat) : Int)
          ≤ (duplicateDetectionTime : Int)))) :=
  ⟨(recent_iff_active_or_recently_finished { start := 0, finish := 7 } 7).1 rfl,
   (recent_iff_active_or_recently_finished { start := 1, finish := 10 }
      (10 + duplicateDetectionTime)).2 (by decide)⟩

/-! ## The locked check-and-mark (C8) -/

/-- C8: the locked step of checkDuplicateAndRun. An absent host is run and
gets an entry with start = now and finish the zero time; a present host whose
entry is not recent is run and gets start = now, finish kept; otherwise the
decision is suppress and the map is unchanged. Entries of other hosts are
unchanged and no entry is removed. -/
theorem locked_check_and_mark (m : LastSeen) (H : String) (now : Nat) :
    (m H = none →
      (checkDuplicateAndRunLocked m H now).1 = true ∧
      (checkDuplicateAndRunLocked m H now).2 H = some { start := now, finish := 0 }) ∧
    (∀ ent, m H = some ent → ent.recent now = false →
      (checkDuplicateAndRunLocked m H now).1 = true ∧
      (checkDuplicateAndRunLocked m H now).2 H = some { start := now, finish := ent.finish }) ∧
    (∀ ent, m H = some ent → ent.recent now = true →
      (checkDuplicateAndRunLocked m H now).1 = false ∧
      (checkDuplicateAndRunLocked m H now).2 = m) ∧
    (∀ h, h ≠ H → (checkDuplicateAndRunLocked m H now).2 h = m h) ∧
    (∀ h, (m h).isSome = true → ((checkDuplicateAndRunLocked m H now).2 h).isSome = true) := by
  refine ⟨?_, ?_, ?_, ?_, ?_⟩
  · intro h
    rw [locked_absent m H now h]
    simp
  · intro ent h hr
    rw [locked_stale m H now ent h hr]
    simp
  · intro ent h hr
    rw [locked_recent m H now ent h hr]
    simp
  · intro h hne
    cases hm : m H with
    | none => rw [locked_absent m H now hm]; simp [hne]
    | some ent =>
      cases hr : ent.recent now with
      | false => rw [locked_stale m H now ent hm hr]; simp [hne]
      | true => rw [locked_recent m H now ent hm hr]
  · intro h hs
    cases hm : m H with
    | none =>
      rw [locked_absent m H now hm]
      by_cases hh : h = H
      · simp [hh]
      · simp [hh, hs]
    | some ent =>
      cases hr : ent.recent now with
      | false =>
        rw [locked_stale m H now ent hm hr]
        by_cases hh : h = H
        · simp [hh]
        · simp [hh, hs]
      | true => rw [locked_recent m H now ent hm hr]; exact hs

/-- Witness for C8: a map that knows host "b" only, a stale entry and a
recent entry. -/
theorem locked_check_and_mark_witness :
    ((checkDuplicateAndRunLocked
        (fun h => if h = "b" then some { start := 5, finish := 9 } else none) "a" 3).1 = true ∧
     (checkDuplicateAndRunLocked
        (fun h => if h = "b" then some { start := 5, finish := 9 } else none) "a" 3).2 "a"
        = some { start := 3, finish := 0 }) ∧
    ((checkDuplicateAndRunLocked
        (fun h => if h = "b" then some { start := 5, finish := 9 } else none) "b"
        (10 + duplicateDetectionTime)).1 = true ∧
     (checkDuplicateAndRunLocked
        (fun h => if h = "b" then some { start := 5, finish := 9 } else none) "b"
        (10 + duplicateDetectionTime)).2 "b"
        = some { start := 10 + duplicateDetectionTime, finish := 9 }) ∧
    ((checkDuplicateAndRunLocked
        (fun h => if h = "b" then some { start := 5, finish := 9 } else none) "b" 12).1 = false ∧
     (checkDuplicateAndRunLocked
        (fun h => if h = "b" then some { start := 5, finish := 9 } else none) "b" 12).2
        = (fun h => if h = "b" then some { start := 5, finish := 9 } else none)) :=
  ⟨(locked_check_and_mark _ "a" 3).1 (by decide),
   (locked_check_and_mark _ "b" (10 + duplicateDetectionTime)).2.1 { start := 5, finish := 9 }
      (by decide) (by decide),
   (locked_check_and_mark _ "b" 12).2.2.1 { start := 5, finish := 9 } (by decide) (by decide)⟩

/-! ## Decisions after a completed run (C2, C7) -/

theorem setPhase_performed (q : queue) (w : Nat) (c : quitCh) (p : Phase) :
    (setPhase q w c p).performed = q.performed := rfl

theorem setPhase_lastSeen (q : queue) (w : Nat) (c : quitCh) (p : Phase) :
    (setPhase q w c p).lastSeen = q.lastSeen := rfl

theorem setPhase_goroutines (q : queue) (w : Nat) (c : quitCh) (p : Phase) :
    (setPhase q w c p).goroutines = q.goroutines.set w { quit := c, phase := p } := rfl

theorem step_check_eq (q : queue) (w now : Nat) (c : quitCh) (job : JobConfig)
    (h0 : now ≠ 0) (hw : q.goroutines[w]? = some { quit := c, phase := Phase.claimed job }) :
    step q (Action.check w now) =
      if (checkDuplicateAndRunLocked q.lastSeen job.Host now).1 then
        some (setPhase
          { q with
            lastSeen := (checkDuplicateAndRunLocked q.lastSeen job.Host now).2
            performed := q.performed ++ [job] }
          w c (Phase.performing job))
      else
        some (setPhase
          { q with
            lastSeen := (checkDuplicateAndRunLocked q.lastSeen job.Host now).2
            duplicateLog := q.duplicateLog ++ [job.Host] }
          w c Phase.returned) := by
  simp only [step, h0, if_false, hw]

/-- C2: a host whose entry records a completed run (start t0 no later than
finish t1) is run at every reference time t later than t1 plus five minutes:
the locked step decides run and sets the entry's start to t, the job is
handed to PerformBackup, both in the function run alone and as the action of
a worker that holds the job. -/
theorem run_after_window (q : queue) (job : JobConfig) (t0 t1 t fin : Nat)
    (hent : q.lastSeen job.Host = some { start := t0, finish := t1 })
    (h01 : t0 ≤ t1) (ht : t1 + duplicateDetectionTime < t) :
    (checkDuplicateAndRunLocked q.lastSeen job.Host t).1 = true ∧
    (checkDuplicateAndRunLocked q.lastSeen job.Host t).2 job.Host
      = some { start := t, finish := t1 } ∧
    (checkDuplicateAndRun q job t fin).performed = q.performed ++ [job] ∧
    (∀ w c, q.goroutines[w]? = some { quit := c, phase := Phase.claimed job } →
      ∃ q1, step q (Action.check w t) = some q1 ∧
        q1.performed = q.performed ++ [job] ∧
        q1.lastSeen job.Host = some { start := t, finish := t1 } ∧
        q1.goroutines[w]? = some { quit := c, phase := Phase.performing job }) := by
  have hr : lastSeenEntry.recent { start := t0, finish := t1 } t = false := by
    rw [recent_eq_false_iff]
    exact Or.inr ⟨h01, ht⟩
  have hl := locked_stale q.lastSeen job.Host t _ hent hr
  refine ⟨by rw [hl], by rw [hl]; simp, ?_, ?_⟩
  · unfold checkDuplicateAndRun
    simp only [hl, if_true]
  · intro w c hw
    have ht0 : t ≠ 0 := by omega
    have hlt : w < q.goroutines.length := by
      rcases List.getElem?_eq_some.1 hw with ⟨h, _⟩
      exact h
    rw [step_check_eq q w t c job ht0 hw, hl]
    refine ⟨_, rfl, ?_, ?_, ?_⟩
    · rw [setPhase_performed]
    · rw [setPhase_lastSeen]; simp
    · rw [setPhase_goroutines]; simp [hlt]

/-- Witness for C2: host "a" ran from 1 to 10 and is checked one nanosecond
after the window has elapsed. -/
theorem run_after_window_witness :
    (checkDuplicateAndRunLocked
        ({ NewQueue 1 with
            lastSeen := fun h => if h = "a" then some { start := 1, finish := 10 } else none }
          ).lastSeen (JobConfig.Host { host := "a" }) (11 + duplicateDetectionTime)).1 = true :=
  (run_after_window
    { NewQueue 1 with
      lastSeen := fun h => if h = "a" then some { start := 1, finish := 10 } else none }
    { host := "a" } 1 10 (11 + duplicateDetectionTime) (12 + duplicateDetectionTime)
    (by decide) (by decide) (by decide)).1

/-- C7, as stated, fails at its last step: with base instant 1, after host
"a" ran at t=0 and its finish was recorded at t=10s, the decision at t=301s
is suppress, not run. -/
theorem scenario_301s_counterexample :
    ¬ ((checkDuplicateAndRunLocked (fun _ => none) "a" 1).1 = true ∧
       (checkDuplicateAndRunLocked
          (checkDuplicateAndRunLocked (fun _ => none) "a" 1).2 "a" (1 + 1 * second)).1 = false ∧
       (checkDuplicateAndRunLocked
          (recordFinish (checkDuplicateAndRunLocked (fun _ => none) "a" 1).2 "a"
            (1 + 10 * second)) "a" (1 + 20 * second)).1 = false ∧
       (checkDuplicateAndRunLocked
          (recordFinish (checkDuplicateAndRunLocked (fun _ => none) "a" 1).2 "a"
            (1 + 10 * second)) "a" (1 + 301 * second)).1 = true) := by
  decide

/-- C7, amended: from a non-zero base instant b, with no entry for host "a":
the decision at b is run; at b+1s, before finish is recorded, suppress; after
finish is recorded at b+10s, the decisions at b+20s and at b+301s are
suppress (301s is within five minutes of the finish at 10s); the decision at
every instant later than b+310s, such as b+311s, is run. -/
theorem example_scenario (b : Nat) (hb : b ≠ 0) :
    (checkDuplicateAndRunLocked (fun _ => none) "a" b).1 = true ∧
    (checkDuplicateAndRunLocked
       (checkDuplicateAndRunLocked (fun _ => none) "a" b).2 "a" (b + 1 * second)).1 = false ∧
    (checkDuplicateAndRunLocked
       (recordFinish (checkDuplicateAndRunLocked (fun _ => none) "a" b).2 "a"
         (b + 10 * second)) "a" (b + 20 * second)).1 = false ∧
    (checkDuplicateAndRunLocked
       (recordFinish (checkDuplicateAndRunLocked (fun _ => none) "a" b).2 "a"
         (b + 10 * second)) "a" (b + 301 * second)).1 = false ∧
    (∀ t, b + 310 * second < t →
      (checkDuplicateAndRunLocked
         (recordFinish (checkDuplicateAndRunLocked (fun _ => none) "a" b).2 "a"
           (b + 10 * second)) "a" t).1 = true) ∧
    (checkDuplicateAndRunLocked
       (recordFinish (checkDuplicateAndRunLocked (fun _ => none) "a" b).2 "a"
         (b + 10 * second)) "a" (b + 311 * second)).1 = true := by
  have h0 : checkDuplicateAndRunLocked (fun _ => none) "a" b
      = (true, fun k => if k = "a" then some { start := b, finish := 0 } else none) :=
    locked_absent _ _ _ rfl
  have hw : duplicateDetectionTime = 300 * second := by decide
  have hs : second = 1000000000 := rfl
  have hgen : ∀ t, b + 310 * second < t →
      (checkDuplicateAndRunLocked
         (recordFinish (checkDuplicateAndRunLocked (fun _ => none) "a" b).2 "a"
           (b + 10 * second)) "a" t).1 = true := by
    intro t ht
    rw [h0, locked_stale _ "a" t { start := b, finish := b + 10 * second }
      (by simp [recordFinish])
      (by rw [recent_eq_false_iff]; right; simp only []; omega)]
  refine ⟨by rw [h0], ?_, ?_, ?_, hgen, hgen _ (by omega)⟩
  · rw [h0, locked_recent _ "a" _ { start := b, finish := 0 } (by simp)
      (by rw [recent_eq_true_iff]; simp only []; omega)]
  · rw [h0, locked_recent _ "a" _ { start := b, finish := b + 10 * second }
      (by simp [recordFinish])
      (by rw [recent_eq_true_iff]; simp only []; omega)]
  · rw [h0, locked_recent _ "a" _ { start := b, finish := b + 10 * second }
      (by simp [recordFinish])
      (by rw [recent_eq_true_iff]; simp only []; omega)]

/-- Witness for C7: the scenario from base instant 1. -/
theorem example_scenario_witness :
    (checkDuplicateAndRunLocked
       (recordFinish (checkDuplicateAndRunLocked (fun _ => none) "a" 1).2 "a"
         (1 + 10 * second)) "a" (1 + 301 * second)).1 = false :=
  (example_scenario 1 (by decide)).2.2.2.1

/-! ## Executions -/

theorem countP_set_at {α : Type} (p : α → Bool) (l : List α) (i : Nat) (a b : α)
    (h : l[i]? = some a) :
    (l.set i b).countP p + (if p a = true then 1 else 0)
      = l.countP p + (if p b = true then 1 else 0) := by
  induction l generalizing i with
  | nil => simp at h
  | cons x xs ih =>
    cases i with
    | zero =>
      simp only [List.getElem?_cons_zero, Option.some.injEq] at h
      subst h
      simp only [List.set_cons_zero, List.countP_cons]
      omega
    | succ j =>
      simp only [List.getElem?_cons_succ] at h
      have := ih j h
      simp only [List.set_cons_succ, List.countP_cons]
      omega

theorem newWorker_goroutines (q : queue) :
    (newWorker q).goroutines = q.goroutines ++ [{ quit := q.nextCh, phase := Phase.idle }] := rfl

theorem newWorkers_frame (n : Nat) (q : queue) :
    (newWorkers n q).jobs = q.jobs ∧ (newWorkers n q).jobsCap = q.jobsCap ∧
    (newWorkers n q).jobGroup = q.jobGroup ∧ (newWorkers n q).lastSeen = q.lastSeen ∧
    (newWorkers n q).sending = q.sending ∧ (newWorkers n q).performed = q.performed ∧
    (newWorkers n q).workerGroup = q.workerGroup ∧ (newWorkers n q).closed = q.closed ∧
    (newWorkers n q).spawning = q.spawning := by
  induction n generalizing q with
  | zero => simp [newWorkers]
  | succ k ih =>
    rw [newWorkers]
    obtain ⟨h1, h2, h3, h4, h5, h6, h7, h8, h9⟩ := ih (newWorker q)
    exact ⟨h1, h2, h3, h4, h5, h6, h7, h8, h9⟩

theorem newWorkers_countP (p : Worker → Bool) (hp : ∀ c, p { quit := c, phase := Phase.idle } = false)
    (n : Nat) (q : queue) :
    (newWorkers n q).goroutines.countP p = q.goroutines.countP p := by
  induction n generalizing q with
  | zero => rfl
  | succ k ih =>
    rw [newWorkers, ih (newWorker q), newWorker_goroutines]
    simp [List.countP_append, hp]

theorem Resize_frame (q q1 : queue) (n : Int) (h : Resize q n = some q1) :
    q1.jobs = q.jobs ∧ q1.jobsCap = q.jobsCap ∧ q1.jobGroup = q.jobGroup ∧
    q1.lastSeen = q.lastSeen ∧ q1.sending = q.sending ∧ q1.performed = q.performed ∧
    q1.goroutines = q.goroutines ∧ q1.nextCh = q.nextCh ∧ q1.duplicateLog = q.duplicateLog := by
  unfold Resize at h
  simp only at h
  generalize resizeCap n = m at h
  split at h
  · split at h
    · simp at h
    · simp only [Option.some.injEq] at h
      subst h
      simp
  · split at h
    · simp only [Option.some.injEq] at h
      subst h
      simp
    · simp only [Option.some.injEq] at h
      subst h
      simp

theorem reachable_induction (P : queue → Prop) (h0 : ∀ size, P (NewQueue size))
    (hstep : ∀ q a q1, P q → step q a = some q1 → P q1) (q : queue) (hq : Reachable q) :
    P q := by
  obtain ⟨size, acts, hrun⟩ := hq
  have key : ∀ (acts : List Action) (s : queue), P s → run s acts = some q → P q := by
    intro acts
    induction acts with
    | nil =>
      intro s hs h
      simp only [run, Option.some.injEq] at h
      exact h ▸ hs
    | cons a rest ih =>
      intro s hs h
      simp only [run] at h
      cases hst : step s a with
      | none => simp [hst] at h
      | some s1 =>
        rw [hst] at h
        exact ih s1 (hstep s a s1 hs hst) h
  exact key acts _ (h0 size) hrun

theorem reachable_NewQueue (size : Int) : Reachable (NewQueue size) := ⟨size, [], rfl⟩

theorem run_append (q : queue) (as bs : List Action) :
    run q (as ++ bs) = (run q as).bind (fun q1 => run q1 bs) := by
  induction as generalizing q with
  | nil => simp [run]
  | cons a rest ih =>
    simp only [List.cons_append, run]
    cases step q a with
    | none => simp
    | some s => simp [ih]

theorem reachable_step (q q1 : queue) (a : Action) (hq : Reachable q) (h : step q a = some q1) :
    Reachable q1 := by
  obtain ⟨size, acts, hrun⟩ := hq
  refine ⟨size, acts ++ [a], ?_⟩
  rw [run_append, hrun]
  simp [run, h]

/-! ## The outstanding-job counter (C6) -/

theorem processing_countP_set (G : List Worker) (w : Nat) (c : quitCh) (p0 p : Phase)
    (hw : G[w]? = some { quit := c, phase := p0 }) :
    (((G.set w { quit := c, phase := p }).countP Worker.processing : Nat) : Int)
        + (if Worker.processing { quit := c, phase := p0 } = true then 1 else 0)
      = ((G.countP Worker.processing : Nat) : Int)
        + (if Worker.processing { quit := c, phase := p } = true then 1 else 0) := by
  have h := countP_set_at Worker.processing G w _ { quit := c, phase := p } hw
  split at h <;> split at h <;> simp_all
  omega

theorem counter_step (q q1 : queue) (a : Action)
    (hinv : q.jobGroup
      = (q.sending.length : Int) + (q.jobs.length : Int) + (q.processingCount : Int))
    (h : step q a = some q1) :
    q1.jobGroup
      = (q1.sending.length : Int) + (q1.jobs.length : Int) + (q1.processingCount : Int) := by
  unfold queue.processingCount at hinv ⊢
  cases a with
  | enqueueAdd job =>
    simp only [step, Option.some.injEq] at h
    subst h
    simp only [List.length_append, List.length_singleton]
    push_cast
    omega
  | enqueueSend i =>
    simp only [step] at h
    split at h
    · next job hj =>
      split at h
      · simp only [Option.some.injEq] at h
        subst h
        have hi : i < q.sending.length := (List.getElem?_eq_some.1 hj).1
        simp only [List.length_append, List.length_singleton,
          List.length_eraseIdx, hi, if_true]
        push_cast
        omega
      · simp at h
    · simp at h
  | dequeue w =>
    simp only [step] at h
    split at h
    · next c job rest hw hj =>
      simp only [Option.some.injEq] at h
      subst h
      have hc := processing_countP_set q.goroutines w c Phase.idle (Phase.claimed job) hw
      simp only [Worker.processing] at hc
      simp only [setPhase]
      rw [hj] at hinv
      simp only [List.length_cons] at hinv
      push_cast at hinv
      simp at hc
      omega
    · simp at h
  | check w now =>
    simp only [step] at h
    split at h
    · simp at h
    · split at h
      · next c job hw =>
        split at h
        · simp only [Option.some.injEq] at h
          subst h
          have hc := processing_countP_set q.goroutines w c (Phase.claimed job)
            (Phase.performing job) hw
          simp only [Worker.processing, if_true, add_left_inj] at hc
          simp only [setPhase]
          omega
        · simp only [Option.some.injEq] at h
          subst h
          have hc := processing_countP_set q.goroutines w c (Phase.claimed job)
            Phase.returned hw
          simp only [Worker.processing, if_true, add_left_inj] at hc
          simp only [setPhase]
          omega
      · simp at h
  | finish w fin =>
    simp only [step] at h
    split at h
    · next c job hw =>
      simp only [Option.some.injEq] at h
      subst h
      have hc := processing_countP_set q.goroutines w c (Phase.performing job)
        Phase.returned hw
      simp only [Worker.processing, if_true, add_left_inj] at hc
      simp only [setPhase]
      omega
    · simp at h
  | jobDone w =>
    simp only [step] at h
    split at h
    · next c hw =>
      simp only [Option.some.injEq] at h
      subst h
      have hc := processing_countP_set q.goroutines w c Phase.returned Phase.idle hw
      simp only [Worker.processing, if_true] at hc
      simp only [setPhase]
      simp at hc
      omega
    · simp at h
  | workerQuit w =>
    simp only [step] at h
    split at h
    · next c hw =>
      split at h
      · simp only [Option.some.injEq] at h
        subst h
        have hc := processing_countP_set q.goroutines w c Phase.idle Phase.stopped hw
        simp only [Worker.processing] at hc
        simp only [setPhase]
        simp at hc
        omega
      · simp at h
    · simp at h
  | resize n =>
    simp only [step] at h
    obtain ⟨h1, _, h3, _, h5, _, h7, _, _⟩ := Resize_frame q q1 n h
    rw [h1, h3, h5, h7]
    exact hinv
  | register =>
    simp only [step] at h
    split at h
    · simp only [Option.some.injEq] at h
      subst h
      rw [newWorker_goroutines]
      simp only [List.countP_append, List.countP_cons, List.countP_nil, Worker.processing]
      simpa [newWorker] using hinv
    · simp at h

theorem counter_NewQueue (size : Int) :
    (NewQueue size).jobGroup
      = ((NewQueue size).sending.length : Int) + ((NewQueue size).jobs.length : Int)
        + ((NewQueue size).processingCount : Int) := by
  unfold NewQueue queue.processingCount
  simp only
  obtain ⟨h1, _, h3, _, h5, _, _, _, _⟩ := newWorkers_frame
    (if size < 1 then 1 else if size > maxParallelity then maxParallelity else size).toNat
    { workers := { arr := List.replicate maxParallelity.toNat none, len := 0 }
      workerGroup := (if size < 1 then 1 else if size > maxParallelity then maxParallelity else size)
      jobs := []
      jobsCap := 16
      jobGroup := 0
      lastSeen := fun _ => none
      closed := []
      nextCh := 0
      goroutines := []
      spawning := 0
      sending := []
      performed := []
      duplicateLog := [] }
  rw [h1, h3, h5, newWorkers_countP Worker.processing (fun _ => rfl)]
  simp

theorem eq_some_getD_of_isSome {α : Type} (o : Option α) (d : α) (h : o.isSome = true) :
    o = some (o.getD d) := by
  cases o with
  | none => simp at h
  | some a => rfl

/-- C6, as stated, fails: with one worker inside PerformBackup, sixteen jobs
pending in the full channel and an eighteenth Enqueue that has incremented
the counter and is blocked on the send, the counter is 18 while 16 jobs are
pending and 1 is being processed. -/
theorem counter_counterexample :
    ¬ (∀ q, run (NewQueue 1) blockedEnqueue = some q →
        q.jobGroup = (q.jobs.length : Int) + (q.processingCount : Int)) := by
  intro h
  have h1 := h ((run (NewQueue 1) blockedEnqueue).getD (NewQueue 1))
    (eq_some_getD_of_isSome _ _ (by decide))
  revert h1
  decide

/-- C6, amended: in every reachable state the counter equals the number of
Enqueue calls that have incremented it and not yet delivered their job to the
channel, plus the number of jobs pending in the channel, plus the number of
jobs being processed by workers; so it is zero once nothing is outstanding.
Every Enqueue increments it by exactly one, and the one decrement per job is
made by a worker for which checkDuplicateAndRun has returned, whether the job
was run or suppressed. -/
theorem counter_invariant (q : queue) (hq : Reachable q) :
    q.jobGroup
      = (q.sending.length : Int) + (q.jobs.length : Int) + (q.processingCount : Int) ∧
    (q.sending = [] → q.jobs = [] → q.processingCount = 0 → q.jobGroup = 0) ∧
    (∀ job, ∃ q1, step q (Action.enqueueAdd job) = some q1 ∧ q1.jobGroup = q.jobGroup + 1) ∧
    (∀ w c, q.goroutines[w]? = some { quit := c, phase := Phase.returned } →
      ∃ q1, step q (Action.jobDone w) = some q1 ∧ q1.jobGroup = q.jobGroup - 1) ∧
    (∀ w q1, step q (Action.jobDone w) = some q1 →
      (∃ c, q.goroutines[w]? = some { quit := c, phase := Phase.returned }) ∧
      q1.jobGroup = q.jobGroup - 1) ∧
    (∀ w c job now, now ≠ 0 →
      q.goroutines[w]? = some { quit := c, phase := Phase.claimed job } →
      ∃ q1, step q (Action.check w now) = some q1 ∧ q1.jobGroup = q.jobGroup ∧
        (q1.goroutines[w]? = some { quit := c, phase := Phase.returned } ∨
         q1.goroutines[w]? = some { quit := c, phase := Phase.performing job })) ∧
    (∀ w c job fin, q.goroutines[w]? = some { quit := c, phase := Phase.performing job } →
      ∃ q1, step q (Action.finish w fin) = some q1 ∧ q1.jobGroup = q.jobGroup ∧
        q1.goroutines[w]? = some { quit := c, phase := Phase.returned }) := by
  have hinv := reachable_induction
    (fun s => s.jobGroup
      = (s.sending.length : Int) + (s.jobs.length : Int) + (s.processingCount : Int))
    counter_NewQueue (fun s a s1 hs h => counter_step s s1 a hs h) q hq
  simp only at hinv
  refine ⟨hinv, ?_, ?_, ?_, ?_, ?_, ?_⟩
  · intro h1 h2 h3
    rw [hinv, h1, h2, h3]
    simp
  · intro job
    exact ⟨_, rfl, rfl⟩
  · intro w c hw
    refine ⟨setPhase { q with jobGroup := q.jobGroup - 1 } w c Phase.idle, ?_, rfl⟩
    simp only [step, hw]
  · intro w q1 h
    simp only [step] at h
    split at h
    · next c hw =>
      simp only [Option.some.injEq] at h
      subst h
      exact ⟨⟨c, hw⟩, rfl⟩
    · simp at h
  · intro w c job now h0 hw
    have hlt : w < q.goroutines.length := (List.getElem?_eq_some.1 hw).1
    rw [step_check_eq q w now c job h0 hw]
    split
    · refine ⟨_, rfl, rfl, Or.inr ?_⟩
      rw [setPhase_goroutines]
      simp [hlt]
    · refine ⟨_, rfl, rfl, Or.inl ?_⟩
      rw [setPhase_goroutines]
      simp [hlt]
  · intro w c job fin hw
    have hlt : w < q.goroutines.length := (List.getElem?_eq_some.1 hw).1
    refine ⟨setPhase { q with lastSeen := recordFinish q.lastSeen job.Host fin } w c
      Phase.returned, ?_, rfl, ?_⟩
    · simp only [step, hw]
    · rw [setPhase_goroutines]
      simp [hlt]

/-- Witness for C6: the queue returned by NewQueue(2) after one Enqueue has
incremented the counter. -/
theorem counter_invariant_witness :
    Reachable ((run (NewQueue 2) [Action.enqueueAdd { host := "a" }]).getD (NewQueue 2)) ∧
    ((run (NewQueue 2) [Action.enqueueAdd { host := "a" }]).getD (NewQueue 2)).jobGroup
      = ((((run (NewQueue 2) [Action.enqueueAdd { host := "a" }]).getD
            (NewQueue 2)).sending.length : Nat) : Int)
        + ((((run (NewQueue 2) [Action.enqueueAdd { host := "a" }]).getD
            (NewQueue 2)).jobs.length : Nat) : Int)
        + ((((run (NewQueue 2) [Action.enqueueAdd { host := "a" }]).getD
            (NewQueue 2)).processingCount : Nat) : Int) :=
  ⟨⟨2, [Action.enqueueAdd { host := "a" }], rfl⟩,
   (counter_invariant _ ⟨2, [Action.enqueueAdd { host := "a" }], rfl⟩).1⟩

/-! ## No overlapping runs (C1, C3) -/

theorem locked_cases (m : LastSeen) (host : String) (now : Nat) :
    (m host = none ∧ checkDuplicateAndRunLocked m host now =
      (true, fun k => if k = host then some { start := now, finish := 0 } else m k)) ∨
    (∃ ent, m host = some ent ∧ ent.recent now = false ∧
      checkDuplicateAndRunLocked m host now =
        (true, fun k => if k = host then some { start := now, finish := ent.finish } else m k)) ∨
    (∃ ent, m host = some ent ∧ ent.recent now = true ∧
      checkDuplicateAndRunLocked m host now = (false, m)) := by
  cases hm : m host with
  | none => exact Or.inl ⟨rfl, locked_absent m host now hm⟩
  | some ent =>
    cases hr : ent.recent now with
    | false => exact Or.inr (Or.inl ⟨ent, rfl, hr, locked_stale m host now ent hm hr⟩)
    | true => exact Or.inr (Or.inr ⟨ent, rfl, hr, locked_recent m host now ent hm hr⟩)

theorem recent_of_active (ent : lastSeenEntry) (ref : Nat) (h : ent.finish < ent.start) :
    ent.recent ref = true := by
  rw [recent_eq_true_iff]
  exact ⟨by omega, Or.inl h⟩

theorem performing_countP_set (H : String) (G : List Worker) (w : Nat) (c : quitCh)
    (p0 p : Phase) (hw : G[w]? = some { quit := c, phase := p0 }) :
    (G.set w { quit := c, phase := p }).countP (Worker.performingHost H)
        + (if Worker.performingHost H { quit := c, phase := p0 } = true then 1 else 0)
      = G.countP (Worker.performingHost H)
        + (if Worker.performingHost H { quit := c, phase := p } = true then 1 else 0) :=
  countP_set_at (Worker.performingHost H) G w _ _ hw

theorem runsExclusive_of_same (q q1 : queue) (hl : q1.lastSeen = q.lastSeen)
    (hc : ∀ H, q1.runsInProgress H = q.runsInProgress H) (h : runsExclusive q) :
    runsExclusive q1 := by
  intro H
  rw [hc H, hl]
  exact h H

theorem exclusive_step (q q1 : queue) (a : Action)
    (hinv : lastSeenStarted q.lastSeen ∧ runsExclusive q) (h : step q a = some q1) :
    lastSeenStarted q1.lastSeen ∧ runsExclusive q1 := by
  obtain ⟨hst, hex⟩ := hinv
  cases a with
  | enqueueAdd job =>
    simp only [step, Option.some.injEq] at h
    subst h
    exact ⟨hst, hex⟩
  | enqueueSend i =>
    simp only [step] at h
    split at h
    · split at h
      · simp only [Option.some.injEq] at h
        subst h
        exact ⟨hst, hex⟩
      · simp at h
    · simp at h
  | dequeue w =>
    simp only [step] at h
    split at h
    · next c job rest hw hj =>
      simp only [Option.some.injEq] at h
      subst h
      refine ⟨hst, runsExclusive_of_same q _ rfl ?_ hex⟩
      intro H
      have hc := performing_countP_set H q.goroutines w c Phase.idle (Phase.claimed job) hw
      simpa [Worker.performingHost] using hc
    · simp at h
  | check w now =>
    simp only [step] at h
    split at h
    · simp at h
    · next h0 =>
      split at h
      · next c job hw =>
        rcases locked_cases q.lastSeen job.Host now with
          ⟨hm, hl⟩ | ⟨ent, hm, hr, hl⟩ | ⟨ent, hm, hr, hl⟩
        · -- absent host: run
          rw [hl] at h
          simp only [if_true, Option.some.injEq] at h
          subst h
          constructor
          · intro k e hk
            simp only [setPhase] at hk
            split at hk
            · simp only [Option.some.injEq] at hk
              subst hk
              exact h0
            · exact hst k e hk
          · intro H
            have hc := performing_countP_set H q.goroutines w c (Phase.claimed job)
              (Phase.performing job) hw
            simp only [Worker.performingHost, Bool.false_eq_true, if_false, add_zero,
              decide_eq_true_eq] at hc
            simp only [queue.runsInProgress, setPhase]
            by_cases hH : job.Host = H
            · have hzero : q.runsInProgress H = 0 := by
                by_contra hne
                obtain ⟨e, he, _⟩ := (hex H).2 (Nat.pos_of_ne_zero hne)
                rw [← hH, hm] at he
                simp at he
              simp only [queue.runsInProgress] at hzero
              rw [if_pos hH, hzero] at hc
              rw [hc]
              refine ⟨by omega, fun _ => ⟨{ start := now, finish := 0 }, ?_, ?_⟩⟩
              · simp [hH]
              · simp only []
                omega
            · rw [if_neg hH] at hc
              rw [hc]
              have hk : ¬ H = job.Host := fun hh => hH hh.symm
              simp only [hk, if_false]
              exact hex H
        · -- stale entry: run
          rw [hl] at h
          simp only [if_true, Option.some.injEq] at h
          subst h
          have hstart : ent.start ≠ 0 := hst _ _ hm
          have hfin : ent.finish < now := by
            rcases (recent_eq_false_iff ent now).1 hr with h1 | ⟨_, h2⟩
            · exact absurd h1 hstart
            · omega
          constructor
          · intro k e hk
            simp only [setPhase] at hk
            split at hk
            · simp only [Option.some.injEq] at hk
              subst hk
              exact h0
            · exact hst k e hk
          · intro H
            have hc := performing_countP_set H q.goroutines w c (Phase.claimed job)
              (Phase.performing job) hw
            simp only [Worker.performingHost, Bool.false_eq_true, if_false, add_zero,
              decide_eq_true_eq] at hc
            simp only [queue.runsInProgress, setPhase]
            by_cases hH : job.Host = H
            · have hzero : q.runsInProgress H = 0 := by
                by_contra hne
                obtain ⟨e, he, hact⟩ := (hex H).2 (Nat.pos_of_ne_zero hne)
                rw [← hH, hm] at he
                simp only [Option.some.injEq] at he
                subst he
                rw [recent_of_active ent now hact] at hr
                simp at hr
              simp only [queue.runsInProgress] at hzero
              rw [if_pos hH, hzero] at hc
              rw [hc]
              refine ⟨by omega, fun _ => ⟨{ start := now, finish := ent.finish }, ?_, ?_⟩⟩
              · simp [hH]
              · exact hfin
            · rw [if_neg hH] at hc
              rw [hc]
              have hk : ¬ H = job.Host := fun hh => hH hh.symm
              simp only [hk, if_false]
              exact hex H
        · -- recent entry: suppress
          rw [hl] at h
          simp only [Bool.false_eq_true, if_false, Option.some.injEq] at h
          subst h
          refine ⟨hst, runsExclusive_of_same q _ rfl ?_ hex⟩
          intro H
          have hc := performing_countP_set H q.goroutines w c (Phase.claimed job)
            Phase.returned hw
          simpa [Worker.performingHost] using hc
      · simp at h
  | finish w fin =>
    simp only [step] at h
    split at h
    · next c job hw =>
      simp only [Option.some.injEq] at h
      subst h
      constructor
      · intro k e hk
        simp only [setPhase, recordFinish] at hk
        split at hk
        · cases hq : q.lastSeen k with
          | none => simp [hq] at hk
          | some e0 =>
            simp only [hq, Option.map_some', Option.some.injEq] at hk
            subst hk
            exact hst k e0 hq
        · exact hst k e hk
      · intro H
        have hc := performing_countP_set H q.goroutines w c (Phase.performing job)
          Phase.returned hw
        simp only [Worker.performingHost, Bool.false_eq_true, if_false, add_zero,
          decide_eq_true_eq] at hc
        simp only [queue.runsInProgress, setPhase]
        by_cases hH : job.Host = H
        · rw [if_pos hH] at hc
          have hle := (hex H).1
          simp only [queue.runsInProgress] at hle
          refine ⟨by omega, fun hpos => ?_⟩
          omega
        · rw [if_neg hH, add_zero] at hc
          rw [hc]
          have hk : ¬ H = job.Host := fun hh => hH hh.symm
          simp only [recordFinish, hk, if_false]
          exact hex H
    · simp at h
  | jobDone w =>
    simp only [step] at h
    split at h
    · next c hw =>
      simp only [Option.some.injEq] at h
      subst h
      refine ⟨hst, runsExclusive_of_same q _ rfl ?_ hex⟩
      intro H
      have hc := performing_countP_set H q.goroutines w c Phase.returned Phase.idle hw
      simpa [Worker.performingHost] using hc
    · simp at h
  | workerQuit w =>
    simp only [step] at h
    split at h
    · next c hw =>
      split at h
      · simp only [Option.some.injEq] at h
        subst h
        refine ⟨hst, runsExclusive_of_same q _ rfl ?_ hex⟩
        intro H
        have hc := performing_countP_set H q.goroutines w c Phase.idle Phase.stopped hw
        simpa [Worker.performingHost] using hc
      · simp at h
    · simp at h
  | resize n =>
    simp only [step] at h
    obtain ⟨_, _, _, h4, _, _, h7, _, _⟩ := Resize_frame q q1 n h
    rw [h4]
    refine ⟨hst, runsExclusive_of_same q _ h4 ?_ hex⟩
    intro H
    simp only [queue.runsInProgress, h7]
  | register =>
    simp only [step] at h
    split at h
    · simp only [Option.some.injEq] at h
      subst h
      refine ⟨hst, runsExclusive_of_same q _ rfl ?_ hex⟩
      intro H
      simp only [queue.runsInProgress, newWorker_goroutines, List.countP_append,
        List.countP_cons, List.countP_nil, Worker.performingHost]
      simp
    · simp at h

theorem exclusive_NewQueue (size : Int) :
    lastSeenStarted (NewQueue size).lastSeen ∧ runsExclusive (NewQueue size) := by
  have hl : (NewQueue size).lastSeen = fun _ => none := by
    unfold NewQueue
    simp only
    rw [(newWorkers_frame _ _).2.2.2.1]
  have hc : ∀ H, (NewQueue size).runsInProgress H = 0 := by
    intro H
    unfold NewQueue queue.runsInProgress
    simp only
    rw [newWorkers_countP (Worker.performingHost H) (fun _ => rfl)]
    rfl
  constructor
  · intro k e hk
    rw [hl] at hk
    simp at hk
  · intro H
    rw [hc H]
    exact ⟨by omega, fun h => absurd h (by omega)⟩

theorem exclusive_of_reachable (q : queue) (hq : Reachable q) :
    lastSeenStarted q.lastSeen ∧ runsExclusive q :=
  reachable_induction (fun s => lastSeenStarted s.lastSeen ∧ runsExclusive s)
    exclusive_NewQueue (fun s a s1 hs h => exclusive_step s s1 a hs h) q hq

theorem checkDuplicateAndRun_suppressed (s : queue) (job : JobConfig) (t fin : Nat)
    (h : checkDuplicateAndRunLocked s.lastSeen job.Host t = (false, s.lastSeen)) :
    (checkDuplicateAndRun s job t fin).performed = s.performed ∧
    (checkDuplicateAndRun s job t fin).lastSeen = s.lastSeen := by
  unfold checkDuplicateAndRun
  simp only [h, Bool.false_eq_true, if_false, and_self]

/-- C3: in every state reachable from NewQueue, each host has at most one run
in progress; a host with a run in progress has an entry whose start is
strictly after its finish, and every check-and-mark for that host decides
suppress and leaves the map unchanged; a worker holding a job for that host
returns from checkDuplicateAndRun without calling PerformBackup. -/
theorem no_overlapping_runs (q : queue) (hq : Reachable q) (H : String) :
    q.runsInProgress H ≤ 1 ∧
    (0 < q.runsInProgress H →
      (∃ ent, q.lastSeen H = some ent ∧ ent.finish < ent.start) ∧
      (∀ now, checkDuplicateAndRunLocked q.lastSeen H now = (false, q.lastSeen)) ∧
      (∀ w c job now q1, job.Host = H →
        q.goroutines[w]? = some { quit := c, phase := Phase.claimed job } →
        step q (Action.check w now) = some q1 →
        q1.performed = q.performed ∧ q1.lastSeen = q.lastSeen ∧
        q1.runsInProgress H = q.runsInProgress H)) := by
  obtain ⟨hst, hex⟩ := exclusive_of_reachable q hq
  refine ⟨(hex H).1, fun hpos => ?_⟩
  obtain ⟨ent, hent, hact⟩ := (hex H).2 hpos
  have hsup : ∀ now, checkDuplicateAndRunLocked q.lastSeen H now = (false, q.lastSeen) :=
    fun now => locked_recent q.lastSeen H now ent hent (recent_of_active ent now hact)
  refine ⟨⟨ent, hent, hact⟩, hsup, ?_⟩
  intro w c job now q1 hH hw hs
  by_cases h0 : now = 0
  · simp [step, h0] at hs
  · rw [step_check_eq q w now c job h0 hw, hH, hsup now] at hs
    simp only [Bool.false_eq_true, if_false, Option.some.injEq] at hs
    subst hs
    refine ⟨rfl, rfl, ?_⟩
    have hc := performing_countP_set H q.goroutines w c (Phase.claimed job) Phase.returned hw
    simp only [queue.runsInProgress, setPhase]
    simpa [Worker.performingHost] using hc

/-- Witness for C3: worker 0 of NewQueue(2) is inside PerformBackup for host
"a". -/
theorem no_overlapping_runs_witness :
    Reachable ((run (NewQueue 2) runningHostA).getD (NewQueue 2)) ∧
    ((run (NewQueue 2) runningHostA).getD (NewQueue 2)).runsInProgress "a" = 1 ∧
    ∀ now, checkDuplicateAndRunLocked
        ((run (NewQueue 2) runningHostA).getD (NewQueue 2)).lastSeen "a" now
      = (false, ((run (NewQueue 2) runningHostA).getD (NewQueue 2)).lastSeen) :=
  ⟨⟨2, runningHostA, rfl⟩, by decide,
   ((no_overlapping_runs _ ⟨2, runningHostA, rfl⟩ "a").2 (by decide)).2.1⟩

/-- C1: in a reachable state, once the locked step has decided run for host
H at a non-zero instant t0 (so that the entry's start is t0): (a) until a
finish is recorded, every decision for H is suppress, at every reference
time; (b) once finish t1 has been recorded, every decision for H at a time
t ≤ t1 + 5 minutes is suppress. In both cases checkDuplicateAndRun does not
call PerformBackup and leaves the map unchanged. -/
theorem suppressed_while_active_or_recent (q : queue) (hq : Reachable q) (H : String)
    (t0 : Nat) (m1 : LastSeen) (h0 : t0 ≠ 0)
    (hrun : checkDuplicateAndRunLocked q.lastSeen H t0 = (true, m1)) :
    (∃ f, m1 H = some { start := t0, finish := f }) ∧
    (∀ t, checkDuplicateAndRunLocked m1 H t = (false, m1)) ∧
    (∀ (s : queue) (job : JobConfig) (t fin : Nat), s.lastSeen = m1 → job.Host = H →
      (checkDuplicateAndRun s job t fin).performed = s.performed ∧
      (checkDuplicateAndRun s job t fin).lastSeen = s.lastSeen) ∧
    (∀ t1, t0 ≤ t1 →
      recordFinish m1 H t1 H = some { start := t0, finish := t1 } ∧
      (∀ t, t ≤ t1 + duplicateDetectionTime →
        checkDuplicateAndRunLocked (recordFinish m1 H t1) H t = (false, recordFinish m1 H t1)) ∧
      (∀ (s : queue) (job : JobConfig) (t fin : Nat), s.lastSeen = recordFinish m1 H t1 →
        job.Host = H → t ≤ t1 + duplicateDetectionTime →
        (checkDuplicateAndRun s job t fin).performed = s.performed ∧
        (checkDuplicateAndRun s job t fin).lastSeen = s.lastSeen)) := by
  obtain ⟨hst, _⟩ := exclusive_of_reachable q hq
  -- the entry after the decision: start t0, strictly after its finish
  have hent : ∃ f, m1 H = some { start := t0, finish := f } ∧ f < t0 := by
    rcases locked_cases q.lastSeen H t0 with ⟨_, hl⟩ | ⟨ent, hm, hr, hl⟩ | ⟨ent, _, _, hl⟩
    · rw [hl] at hrun
      simp only [Prod.mk.injEq, true_and] at hrun
      subst hrun
      exact ⟨0, by simp, by omega⟩
    · rw [hl] at hrun
      simp only [Prod.mk.injEq, true_and] at hrun
      subst hrun
      refine ⟨ent.finish, by simp, ?_⟩
      rcases (recent_eq_false_iff ent t0).1 hr with h1 | ⟨_, h2⟩
      · exact absurd h1 (hst _ _ hm)
      · omega
    · rw [hl] at hrun
      simp at hrun
  obtain ⟨f, hf, hlt⟩ := hent
  have ha : ∀ t, checkDuplicateAndRunLocked m1 H t = (false, m1) :=
    fun t => locked_recent m1 H t _ hf (recent_of_active _ t hlt)
  have hfin : ∀ t1, recordFinish m1 H t1 H = some { start := t0, finish := t1 } := by
    intro t1
    simp [recordFinish, hf]
  have hb : ∀ t1 t, t ≤ t1 + duplicateDetectionTime →
      checkDuplicateAndRunLocked (recordFinish m1 H t1) H t
        = (false, recordFinish m1 H t1) := by
    intro t1 t ht
    refine locked_recent _ H t _ (hfin t1) ?_
    rw [recent_eq_true_iff]
    exact ⟨h0, Or.inr ht⟩
  refine ⟨⟨f, hf⟩, ha, ?_, ?_⟩
  · intro s job t fin hs hj
    apply checkDuplicateAndRun_suppressed
    rw [hs, hj]
    exact ha t
  · intro t1 _
    refine ⟨hfin t1, hb t1, ?_⟩
    intro s job t fin hs hj ht
    apply checkDuplicateAndRun_suppressed
    rw [hs, hj]
    exact hb t1 t ht

/-- Witness for C1: host "a" is first seen by NewQueue(2) at instant 1. -/
theorem suppressed_while_active_or_recent_witness :
    Reachable (NewQueue 2) ∧
    ∀ t, checkDuplicateAndRunLocked
        (checkDuplicateAndRunLocked (NewQueue 2).lastSeen "a" 1).2 "a" t
      = (false, (checkDuplicateAndRunLocked (NewQueue 2).lastSeen "a" 1).2) :=
  ⟨reachable_NewQueue 2,
   (suppressed_while_active_or_recent (NewQueue 2) (reachable_NewQueue 2) "a" 1
      (checkDuplicateAndRunLocked (NewQueue 2).lastSeen "a" 1).2 (by decide) rfl).2.1⟩

/-! ## NewQueue (C5) -/

theorem take_succ_set {α : Type} (l : List α) (n : Nat) (a : α) (h : n < l.length) :
    (l.set n a).take (n + 1) = l.take n ++ [a] := by
  induction l generalizing n with
  | nil => simp at h
  | cons x xs ih =>
    cases n with
    | zero => simp
    | succ k =>
      simp only [List.length_cons, Nat.add_lt_add_iff_right] at h
      simp [ih k h]

theorem append_toList (s : Slice) (x : Option quitCh) (h : s.len ≤ s.arr.length) :
    (s.append x).toList = s.toList ++ [x] ∧ (s.append x).len = s.len + 1 ∧
    (s.append x).len ≤ (s.append x).arr.length := by
  unfold Slice.append Slice.toList
  split
  · next hlt =>
    refine ⟨take_succ_set _ _ _ hlt, rfl, ?_⟩
    simp only [List.length_set]
    omega
  · next hge =>
    have hlen : (List.take s.len s.arr).length = s.len := by
      rw [List.length_take]
      omega
    refine ⟨?_, rfl, ?_⟩
    · simp only
      rw [List.take_of_length_le]
      simp only [List.length_append, List.length_singleton, hlen]
      omega
    · simp only [List.length_append, List.length_singleton, hlen]
      omega

theorem newWorkers_workers (n : Nat) (q : queue) (h : q.workers.len ≤ q.workers.arr.length) :
    (newWorkers n q).workers.toList
      = q.workers.toList ++ (List.range' q.nextCh n).map some ∧
    (newWorkers n q).workers.len = q.workers.len + n ∧
    (newWorkers n q).goroutines
      = q.goroutines
        ++ (List.range' q.nextCh n).map (fun c => { quit := c, phase := Phase.idle }) ∧
    (newWorkers n q).nextCh = q.nextCh + n := by
  induction n generalizing q with
  | zero => simp [newWorkers]
  | succ k ih =>
    obtain ⟨h1, h2, h3⟩ := append_toList q.workers (some q.nextCh) h
    have hq : (newWorker q).workers = q.workers.append (some q.nextCh) := rfl
    have hn : (newWorker q).nextCh = q.nextCh + 1 := rfl
    obtain ⟨i1, i2, i3, i4⟩ := ih (newWorker q) (by rw [hq]; exact h3)
    rw [newWorkers]
    rw [i1, i2, i3, i4, hq, h1, h2, hn, newWorker_goroutines]
    simp only [List.range'_succ, List.map_cons, List.append_assoc, List.singleton_append]
    refine ⟨trivial, ?_, trivial, ?_⟩ <;> omega

theorem clampSize_bounds (n : Int) : 1 ≤ clampSize n ∧ clampSize n ≤ 255 := by
  unfold clampSize maxParallelity
  split
  · omega
  · split <;> omega

/-- C5: NewQueue(size) returns a queue with exactly clamp(size, 1, 255)
workers started, each registered in q.workers (handles 0, 1, ... in order of
creation, every worker idle on its own handle), an empty lastSeen map and an
empty pending-job channel of capacity 16. -/
theorem NewQueue_spec (size : Int) :
    ((NewQueue size).workers.len : Int) = clampSize size ∧
    (NewQueue size).workers.toList = (List.range (clampSize size).toNat).map some ∧
    (NewQueue size).goroutines
      = (List.range (clampSize size).toNat).map (fun c => { quit := c, phase := Phase.idle }) ∧
    (∀ h, (NewQueue size).lastSeen h = none) ∧
    (NewQueue size).jobs = [] ∧ (NewQueue size).jobsCap = 16 ∧
    (NewQueue size).jobGroup = 0 ∧ (NewQueue size).workerGroup = clampSize size ∧
    (NewQueue size).spawning = 0 ∧ (NewQueue size).closed = [] ∧
    (size < 1 → (NewQueue size).workers.len = 1) ∧
    (255 < size → (NewQueue size).workers.len = 255) ∧
    (1 ≤ size → size ≤ 255 → ((NewQueue size).workers.len : Int) = size) := by
  have hb := clampSize_bounds size
  have hN : NewQueue size = newWorkers (clampSize size).toNat
      { workers := { arr := List.replicate maxParallelity.toNat none, len := 0 }
        workerGroup := clampSize size
        jobs := []
        jobsCap := 16
        jobGroup := 0
        lastSeen := fun _ => none
        closed := []
        nextCh := 0
        goroutines := []
        spawning := 0
        sending := []
        performed := []
        duplicateLog := [] } := rfl
  obtain ⟨w1, w2, w3, _⟩ := newWorkers_workers (clampSize size).toNat
      { workers := { arr := List.replicate maxParallelity.toNat none, len := 0 }
        workerGroup := clampSize size
        jobs := []
        jobsCap := 16
        jobGroup := 0
        lastSeen := fun _ => none
        closed := []
        nextCh := 0
        goroutines := []
        spawning := 0
        sending := []
        performed := []
        duplicateLog := [] } (Nat.zero_le _)
  obtain ⟨f1, f2, f3, f4, _, _, f7, f8, f9⟩ := newWorkers_frame (clampSize size).toNat
      { workers := { arr := List.replicate maxParallelity.toNat none, len := 0 }
        workerGroup := clampSize size
        jobs := []
        jobsCap := 16
        jobGroup := 0
        lastSeen := fun _ => none
        closed := []
        nextCh := 0
        goroutines := []
        spawning := 0
        sending := []
        performed := []
        duplicateLog := [] }
  rw [← hN] at w1 w2 w3 f1 f2 f3 f4 f7 f8 f9
  have hlen : ((NewQueue size).workers.len : Int) = clampSize size := by
    rw [w2]
    simp only [Nat.zero_add]
    omega
  refine ⟨hlen, ?_, ?_, ?_, f1, f2, f3, f7, f9, f8, ?_, ?_, ?_⟩
  · rw [w1]
    simp [Slice.toList, List.range_eq_range']
  · rw [w3]
    simp [List.range_eq_range']
  · intro h
    rw [f4]
  · intro h
    have : clampSize size = 1 := by simp [clampSize, h]
    omega
  · intro h
    have : clampSize size = 255 := by
      unfold clampSize maxParallelity
      rw [if_neg (by omega), if_pos (by omega)]
    omega
  · intro h1 h2
    have : clampSize size = size := by
      unfold clampSize maxParallelity
      rw [if_neg (by omega), if_neg (by omega)]
    omega

/-- Witness for C5: the sizes -5, 0, 1000 and 7. -/
theorem NewQueue_spec_witness :
    (NewQueue (-5)).workers.len = 1 ∧ (NewQueue 0).workers.len = 1 ∧
    (NewQueue 1000).workers.len = 255 ∧ ((NewQueue 7).workers.len : Int) = 7 :=
  ⟨(NewQueue_spec (-5)).2.2.2.2.2.2.2.2.2.2.1 (by decide),
   (NewQueue_spec 0).2.2.2.2.2.2.2.2.2.2.1 (by decide),
   (NewQueue_spec 1000).2.2.2.2.2.2.2.2.2.2.2.1 (by decide),
   (NewQueue_spec 7).2.2.2.2.2.2.2.2.2.2.2.2 (by decide) (by decide)⟩

/-! ## Resize (C4, C10) -/

theorem clearFrom_succ (arr : List (Option quitCh)) (lo c : Nat) :
    clearFrom arr lo (c + 1) = (clearFrom arr lo c).set (lo + c) none := by
  unfold clearFrom
  rw [List.range_succ, List.foldl_append]
  rfl

theorem clearFrom_length (arr : List (Option quitCh)) (lo c : Nat) :
    (clearFrom arr lo c).length = arr.length := by
  induction c with
  | zero => rfl
  | succ k ih => rw [clearFrom_succ, List.length_set, ih]

theorem clearFrom_slot (arr : List (Option quitCh)) (lo c i : Nat) :
    (clearFrom arr lo c)[i]?
      = if lo ≤ i ∧ i < lo + c ∧ i < arr.length then some none else arr[i]? := by
  induction c with
  | zero =>
    have : ¬ (lo ≤ i ∧ i < lo + 0 ∧ i < arr.length) := by omega
    rw [if_neg this]
    rfl
  | succ k ih =>
    rw [clearFrom_succ, List.getElem?_set, ih]
    by_cases h1 : lo + k = i
    · subst h1
      rw [if_pos rfl, clearFrom_length]
      by_cases h2 : lo + k < arr.length
      · rw [if_pos h2, if_pos ⟨by omega, by omega, h2⟩]
      · rw [if_neg h2, if_neg (by omega)]
        rw [List.getElem?_eq_none (by omega)]
    · rw [if_neg h1]
      by_cases h3 : lo ≤ i ∧ i < lo + k ∧ i < arr.length
      · rw [if_pos h3, if_pos (by omega)]
      · rw [if_neg h3, if_neg (by omega)]

theorem closeAll_fresh (cs : List quitCh) (closed : List quitCh) (hnd : cs.Nodup)
    (hfresh : ∀ c ∈ cs, c ∉ closed) :
    closeAll closed (cs.map some) = some (closed ++ cs) := by
  induction cs generalizing closed with
  | nil => simp [closeAll]
  | cons c rest ih =>
    simp only [List.map_cons, closeAll]
    have hc : c ∉ closed := hfresh c (List.mem_cons_self _ _)
    rw [if_neg hc]
    rw [List.nodup_cons] at hnd
    rw [ih (closed ++ [c]) hnd.2]
    · simp
    · intro x hx
      simp only [List.mem_append, List.mem_singleton, not_or]
      refine ⟨hfresh x (List.mem_cons_of_mem _ hx), ?_⟩
      rintro rfl
      exact hnd.1 hx

theorem shrink_array (arr : List (Option quitCh)) (n s : Nat) (hs : s ≤ n)
    (hn : n ≤ arr.length) :
    (clearFrom (copyFront arr n ((arr.take n).drop (n - s))) s (n - s)).length = arr.length ∧
    (clearFrom (copyFront arr n ((arr.take n).drop (n - s))) s (n - s)).take s
      = (arr.take n).drop (n - s) ∧
    (∀ i, s ≤ i → i < n →
      (clearFrom (copyFront arr n ((arr.take n).drop (n - s))) s (n - s))[i]? = some none) ∧
    (∀ i, n ≤ i →
      (clearFrom (copyFront arr n ((arr.take n).drop (n - s))) s (n - s))[i]? = arr[i]?) := by
  have hsrc : ((arr.take n).drop (n - s)).length = s := by
    rw [List.length_drop, List.length_take]
    omega
  have hcopy : copyFront arr n ((arr.take n).drop (n - s))
      = (arr.take n).drop (n - s) ++ arr.drop s := by
    unfold copyFront
    simp only [hsrc, Nat.min_eq_right hs]
    rw [List.take_of_length_le (by omega)]
  have hlen1 : ((arr.take n).drop (n - s) ++ arr.drop s).length = arr.length := by
    rw [List.length_append, hsrc, List.length_drop]
    omega
  rw [hcopy]
  refine ⟨by rw [clearFrom_length, hlen1], ?_, ?_, ?_⟩
  · apply List.ext_getElem?
    intro i
    rw [List.getElem?_take]
    by_cases hi : i < s
    · rw [if_pos hi, clearFrom_slot, if_neg (by omega),
        List.getElem?_append_left (by omega)]
    · rw [if_neg hi, List.getElem?_eq_none (by omega)]
  · intro i h1 h2
    rw [clearFrom_slot, if_pos ⟨h1, by omega, by omega⟩]
  · intro i h1
    rw [clearFrom_slot, if_neg (by omega), List.getElem?_append_right (by omega), hsrc,
      List.getElem?_drop]
    congr 1
    omega

theorem Resize_shrink (q : queue) (newSize : Int) (ws : List quitCh)
    (hcap : 0 ≤ resizeCap newSize) (hlt : (resizeCap newSize).toNat < q.workers.len)
    (hws : q.workers.toList = ws.map some) (hnd : ws.Nodup)
    (hfresh : ∀ c ∈ ws, c ∉ q.closed) :
    Resize q newSize = some
      { q with
        closed := q.closed ++ ws.take (q.workers.len - (resizeCap newSize).toNat)
        workers :=
          { arr := clearFrom
              (copyFront q.workers.arr q.workers.len
                (q.workers.toList.drop (q.workers.len - (resizeCap newSize).toNat)))
              (resizeCap newSize).toNat (q.workers.len - (resizeCap newSize).toNat)
            len := (resizeCap newSize).toNat } } := by
  unfold Resize
  simp only
  have hdiff : (q.workers.len : Int) - resizeCap newSize > 0 := by omega
  have hd : ((q.workers.len : Int) - resizeCap newSize).toNat
      = q.workers.len - (resizeCap newSize).toNat := by omega
  rw [if_pos hdiff, hd, hws, ← List.map_take,
    closeAll_fresh _ _ (hnd.sublist (List.take_sublist _ _))
      (fun c hc => hfresh c (List.mem_of_mem_take hc))]

theorem resizeCap_eq_clampSize (n : Int) (h : n ≠ 0) : resizeCap n = clampSize n := by
  unfold resizeCap clampSize
  by_cases h1 : n < 0
  · rw [if_pos h1, if_pos (by omega)]
  · rw [if_neg h1, if_neg (show ¬ n < 1 by omega)]

theorem resizeCap_bounds (n : Int) : 0 ≤ resizeCap n ∧ resizeCap n ≤ 255 := by
  unfold resizeCap maxParallelity
  split
  · omega
  · split <;> omega

theorem workersWellFormed_congr (q q1 : queue) (hw : q1.workers = q.workers)
    (hc : q1.closed = q.closed) (hn : q1.nextCh = q.nextCh) (h : workersWellFormed q) :
    workersWellFormed q1 := by
  unfold workersWellFormed at h ⊢
  rw [hw, hc, hn]
  exact h

theorem workersWellFormed_newWorker (q : queue) (h : workersWellFormed q) :
    workersWellFormed (newWorker q) := by
  obtain ⟨hlen, htail, hclosed, ws, hws, hnd, hfresh⟩ := h
  obtain ⟨a1, a2, a3⟩ := append_toList q.workers (some q.nextCh) hlen
  have hq : (newWorker q).workers = q.workers.append (some q.nextCh) := rfl
  have hn : (newWorker q).nextCh = q.nextCh + 1 := rfl
  have hc : (newWorker q).closed = q.closed := rfl
  unfold workersWellFormed
  rw [hq, hn, hc]
  refine ⟨a3, ?_, ?_, ws ++ [q.nextCh], ?_, ?_, ?_⟩
  · intro i h1 h2
    rw [a2] at h1
    unfold Slice.append at h2 ⊢
    split at h2
    · next hlt =>
      rw [if_pos hlt]
      simp only [List.length_set] at h2
      simp only
      rw [List.getElem?_set, if_neg (by omega)]
      exact htail i (by omega) h2
    · next hge =>
      simp only [Slice.toList, List.length_append, List.length_take, List.length_singleton] at h2
      omega
  · intro c hcm
    have := hclosed c hcm
    omega
  · rw [a1, hws]
    simp
  · rw [List.nodup_append]
    refine ⟨hnd, List.nodup_singleton _, ?_⟩
    intro a ha hb
    simp only [List.mem_singleton] at hb
    subst hb
    exact absurd (hfresh _ ha).2 (by omega)
  · intro c hcm
    simp only [List.mem_append, List.mem_singleton] at hcm
    rcases hcm with hcm | hcm
    · exact ⟨(hfresh c hcm).1, by have := (hfresh c hcm).2; omega⟩
    · subst hcm
      refine ⟨fun hcl => ?_, by omega⟩
      exact absurd (hclosed _ hcl) (by omega)

theorem workersWellFormed_newWorkers (n : Nat) (q : queue) (h : workersWellFormed q) :
    workersWellFormed (newWorkers n q) := by
  induction n generalizing q with
  | zero => exact h
  | succ k ih => exact ih (newWorker q) (workersWellFormed_newWorker q h)

theorem workersWellFormed_NewQueue (size : Int) : workersWellFormed (NewQueue size) := by
  unfold NewQueue
  simp only
  apply workersWellFormed_newWorkers
  refine ⟨Nat.zero_le _, ?_, ?_, [], rfl, List.nodup_nil, ?_⟩
  · intro i _ h2
    simp only [List.length_replicate] at h2
    simp only
    rw [List.getElem?_replicate, if_pos h2]
  · intro c hc
    simp at hc
  · intro c hc
    simp at hc

theorem toList_length (s : Slice) (h : s.len ≤ s.arr.length) : s.toList.length = s.len := by
  unfold Slice.toList
  rw [List.length_take]
  omega

theorem workersWellFormed_Resize (q q1 : queue) (n : Int) (h : workersWellFormed q)
    (hr : Resize q n = some q1) : workersWellFormed q1 := by
  obtain ⟨hlen, htail, hclosed, ws, hws, hnd, hfresh⟩ := h
  have hcap := resizeCap_bounds n
  have hwl : ws.length = q.workers.len := by
    rw [← toList_length q.workers hlen, hws, List.length_map]
  by_cases hlt : (resizeCap n).toNat < q.workers.len
  · rw [Resize_shrink q n ws hcap.1 hlt hws hnd (fun c hc => (hfresh c hc).1)] at hr
    simp only [Option.some.injEq] at hr
    subst hr
    obtain ⟨s1, s2, s3, s4⟩ := shrink_array q.workers.arr q.workers.len (resizeCap n).toNat
      (by omega) hlen
    unfold workersWellFormed
    simp only
    refine ⟨by unfold Slice.toList; rw [s1]; omega, ?_, ?_,
      ws.drop (q.workers.len - (resizeCap n).toNat), ?_, ?_, ?_⟩
    · intro i h1 h2
      unfold Slice.toList at h2 ⊢
      rw [s1] at h2
      by_cases h3 : i < q.workers.len
      · exact s3 i h1 h3
      · rw [s4 i (by omega)]
        exact htail i (by omega) h2
    · intro c hc
      rw [List.mem_append] at hc
      rcases hc with hc | hc
      · exact hclosed c hc
      · exact (hfresh c (List.mem_of_mem_take hc)).2
    · simp only [Slice.toList] at hws ⊢
      rw [s2, hws, List.map_drop]
    · exact hnd.sublist (List.drop_sublist _ _)
    · intro c hc
      have hmem : c ∈ ws := List.mem_of_mem_drop hc
      refine ⟨?_, (hfresh c hmem).2⟩
      rw [List.mem_append, not_or]
      refine ⟨(hfresh c hmem).1, fun htake => ?_⟩
      have hd := List.disjoint_take_drop hnd (Nat.le_refl (q.workers.len - (resizeCap n).toNat))
      exact hd htake hc
  · unfold Resize at hr
    simp only at hr
    rw [if_neg (by omega)] at hr
    split at hr
    · simp only [Option.some.injEq] at hr
      subst hr
      exact ⟨hlen, htail, hclosed, ws, hws, hnd, hfresh⟩
    · simp only [Option.some.injEq] at hr
      subst hr
      exact ⟨hlen, htail, hclosed, ws, hws, hnd, hfresh⟩

theorem workersWellFormed_step (q q1 : queue) (a : Action) (hwf : workersWellFormed q)
    (h : step q a = some q1) : workersWellFormed q1 := by
  cases a with
  | enqueueAdd job =>
    simp only [step, Option.some.injEq] at h
    subst h
    exact hwf
  | enqueueSend i =>
    simp only [step] at h
    split at h
    · split at h
      · simp only [Option.some.injEq] at h
        subst h
        exact hwf
      · simp at h
    · simp at h
  | dequeue w =>
    simp only [step] at h
    split at h
    · simp only [Option.some.injEq] at h
      subst h
      exact hwf
    · simp at h
  | check w now =>
    simp only [step] at h
    split at h
    · simp at h
    · split at h
      · split at h
        · simp only [Option.some.injEq] at h
          subst h
          exact hwf
        · simp only [Option.some.injEq] at h
          subst h
          exact hwf
      · simp at h
  | finish w fin =>
    simp only [step] at h
    split at h
    · simp only [Option.some.injEq] at h
      subst h
      exact hwf
    · simp at h
  | jobDone w =>
    simp only [step] at h
    split at h
    · simp only [Option.some.injEq] at h
      subst h
      exact hwf
    · simp at h
  | workerQuit w =>
    simp only [step] at h
    split at h
    · split at h
      · simp only [Option.some.injEq] at h
        subst h
        exact hwf
      · simp at h
    · simp at h
  | resize n =>
    simp only [step] at h
    exact workersWellFormed_Resize q q1 n hwf h
  | register =>
    simp only [step] at h
    split at h
    · simp only [Option.some.injEq] at h
      subst h
      exact workersWellFormed_newWorker _
        (workersWellFormed_congr q _ rfl rfl rfl hwf)
    · simp at h

theorem workersWellFormed_of_reachable (q : queue) (hq : Reachable q) : workersWellFormed q :=
  reachable_induction workersWellFormed workersWellFormed_NewQueue
    (fun s a s1 hs h => workersWellFormed_step s s1 a hs h) q hq

theorem run_register (k : Nat) (q : queue) (h : k ≤ q.spawning) :
    ∃ q2, run q (List.replicate k Action.register) = some q2 ∧
      q2.workers.len = q.workers.len + k ∧ q2.spawning = q.spawning - k := by
  induction k generalizing q with
  | zero => exact ⟨q, rfl, rfl, rfl⟩
  | succ n ih =>
    have hpos : 0 < q.spawning := by omega
    have hlen : (newWorker { q with spawning := q.spawning - 1 }).workers.len
        = q.workers.len + 1 := by
      simp only [newWorker, Slice.append]
      split <;> rfl
    have hsp : (newWorker { q with spawning := q.spawning - 1 }).spawning
        = q.spawning - 1 := rfl
    obtain ⟨q2, r1, r2, r3⟩ := ih (newWorker { q with spawning := q.spawning - 1 })
      (by rw [hsp]; omega)
    refine ⟨q2, ?_, ?_, ?_⟩
    · simp only [List.replicate_succ, run, step, hpos, if_true, Option.some_bind]
      exact r1
    · rw [r2, hlen]
      omega
    · rw [r3, hsp]
      omega

set_option maxRecDepth 100000

/-- C4, as stated, fails when the pool grows: Resize(3) on the queue returned
by NewQueue(1) returns with one handle in q.workers, not three; the two new
workers are launched with a go statement and register themselves only after
Resize has released the lock. -/
theorem Resize_grow_counterexample :
    ¬ (∀ q1, Resize (NewQueue 1) 3 = some q1 → (q1.workers.len : Int) = clampSize 3) := by
  intro h
  have h1 := h ((Resize (NewQueue 1) 3).getD (NewQueue 1))
    (eq_some_getD_of_isSome _ _ (by decide))
  revert h1
  decide

/-- The capping of Resize lets newSize = 0 through: on a well-formed queue
with at least one worker, Resize(0) stops every worker and leaves q.workers
empty, where NewQueue(0) and the documentation of Resize assume size 1. -/
theorem Resize_zero_stops_every_worker (q : queue) (hwf : workersWellFormed q)
    (hpos : 0 < q.workers.len) :
    ∃ q1, Resize q 0 = some q1 ∧ q1.workers.len = 0 ∧
      ∀ c, some c ∈ q.workers.toList → c ∈ q1.closed := by
  obtain ⟨hlen, _, _, ws, hws, hnd, hfresh⟩ := hwf
  have hcap : resizeCap 0 = 0 := by decide
  refine ⟨_, Resize_shrink q 0 ws (by rw [hcap]) (by rw [hcap]; exact hpos) hws hnd
    (fun c hc => (hfresh c hc).1), ?_, ?_⟩
  · simp only [hcap]
    rfl
  · intro c hc
    have hwl : ws.length = q.workers.len := by
      rw [← toList_length q.workers hlen, hws, List.length_map]
    rw [hws] at hc
    simp only [List.mem_map, Option.some.injEq, exists_eq_right] at hc
    simp only [hcap, Int.toNat_zero, Nat.sub_zero, ← hwl, List.take_length]
    exact List.mem_append_right _ hc

/-- C4, amended: for every newSize other than 0 and every queue state, when
Resize(newSize) returns, the number of handles in q.workers plus the number
of newWorker calls this Resize launched equals newSize clamped to [1, 255].
When the pool does not grow, len(q.workers) itself equals the clamped size
at return. When it grows, q.workers is unchanged at return and the missing
handles are appended by the launched newWorker calls: once they have run,
len(q.workers) equals the clamped size. -/
theorem Resize_pool_size (q q1 : queue) (newSize : Int) (hne : newSize ≠ 0)
    (h : Resize q newSize = some q1) :
    1 ≤ clampSize newSize ∧ clampSize newSize ≤ 255 ∧
    (newSize < 1 → clampSize newSize = 1) ∧
    (255 < newSize → clampSize newSize = 255) ∧
    (1 ≤ newSize → newSize ≤ 255 → clampSize newSize = newSize) ∧
    q.spawning ≤ q1.spawning ∧
    ((q1.workers.len : Int) + ((q1.spawning : Int) - (q.spawning : Int))
      = clampSize newSize) ∧
    (clampSize newSize ≤ (q.workers.len : Int) →
      (q1.workers.len : Int) = clampSize newSize ∧ q1.spawning = q.spawning) ∧
    ((q.workers.len : Int) < clampSize newSize →
      q1.workers = q.workers ∧
      q1.workerGroup = q.workerGroup + (clampSize newSize - (q.workers.len : Int))) ∧
    (∃ q2, run q1 (List.replicate (q1.spawning - q.spawning) Action.register) = some q2 ∧
      (q2.workers.len : Int) = clampSize newSize) := by
  have hb := clampSize_bounds newSize
  have hcap := resizeCap_eq_clampSize newSize hne
  have hmain : q.spawning ≤ q1.spawning ∧
      ((q1.workers.len : Int) + ((q1.spawning : Int) - (q.spawning : Int))
        = clampSize newSize) ∧
      (clampSize newSize ≤ (q.workers.len : Int) →
        (q1.workers.len : Int) = clampSize newSize ∧ q1.spawning = q.spawning) ∧
      ((q.workers.len : Int) < clampSize newSize →
        q1.workers = q.workers ∧
        q1.workerGroup = q.workerGroup + (clampSize newSize - (q.workers.len : Int))) := by
    unfold Resize at h
    simp only at h
    rw [hcap] at h
    split at h
    · next hd =>
      split at h
      · simp at h
      · simp only [Option.some.injEq] at h
        subst h
        refine ⟨Nat.le_refl _, ?_, ?_, ?_⟩
        · simp only
          omega
        · intro _
          refine ⟨?_, rfl⟩
          simp only
          omega
        · intro hlt
          omega
    · next hd =>
      split at h
      · next hd2 =>
        simp only [Option.some.injEq] at h
        subst h
        refine ⟨?_, ?_, ?_, ?_⟩
        · simp only
          omega
        · simp only
          omega
        · intro hle
          omega
        · intro _
          refine ⟨rfl, ?_⟩
          simp only
          omega
      · next hd2 =>
        simp only [Option.some.injEq] at h
        subst h
        refine ⟨Nat.le_refl _, ?_, ?_, ?_⟩
        · omega
        · intro _
          exact ⟨by omega, rfl⟩
        · intro hlt
          omega
  obtain ⟨m1, m2, m3, m4⟩ := hmain
  refine ⟨hb.1, hb.2, ?_, ?_, ?_, m1, m2, m3, m4, ?_⟩
  · intro hlt
    simp [clampSize, hlt]
  · intro hgt
    unfold clampSize maxParallelity
    rw [if_neg (by omega), if_pos (by omega)]
  · intro h1 h2
    unfold clampSize maxParallelity
    rw [if_neg (by omega), if_neg (by omega)]
  · obtain ⟨q2, r1, r2, _⟩ := run_register (q1.spawning - q.spawning) q1 (by omega)
    refine ⟨q2, r1, ?_⟩
    rw [r2]
    omega

/-- Witness for C4: NewQueue(5) resized to 3, and NewQueue(1) resized to 3. -/
theorem Resize_pool_size_witness :
    (((Resize (NewQueue 5) 3).getD (NewQueue 5)).workers.len : Int) = clampSize 3 ∧
    ((Resize (NewQueue 1) 3).getD (NewQueue 1)).workers = (NewQueue 1).workers :=
  ⟨((Resize_pool_size (NewQueue 5) _ 3 (by decide)
      (eq_some_getD_of_isSome (Resize (NewQueue 5) 3) (NewQueue 5) (by decide))).2.2.2.2.2.2.2.1
      (by decide)).1,
   ((Resize_pool_size (NewQueue 1) _ 3 (by decide)
      (eq_some_getD_of_isSome (Resize (NewQueue 1) 3) (NewQueue 1) (by decide))).2.2.2.2.2.2.2.2.1
      (by decide)).1⟩

/-- C10, as stated, fails for a requested size above 255: after three calls
of Resize(255) on NewQueue(254) and the three newWorker goroutines they
launched, q.workers holds n = 257 handles; Resize(256), with 1 ≤ 256 < 257,
is capped to 255, so it leaves 255 handles, not the last 256. -/
theorem Resize_shrink_counterexample :
    ¬ (∀ q q1, run (NewQueue 254) overshoot = some q → Resize q 256 = some q1 →
        256 < q.workers.len → q1.workers.len = 256) := by
  intro h
  have h1 := h ((run (NewQueue 254) overshoot).getD (NewQueue 1))
    ((Resize ((run (NewQueue 254) overshoot).getD (NewQueue 1)) 256).getD (NewQueue 1))
    (eq_some_getD_of_isSome _ _ (by decide))
    (eq_some_getD_of_isSome _ _ (by decide)) (by decide)
  revert h1
  decide

/-- C10, amended: for every well-formed worker collection ws of length n and
every requested size s with 1 ≤ s < n and s ≤ 255, Resize(s) closes exactly
the first n - s handles of ws, in order, and no others; it leaves q.workers
equal to the last s handles of ws in their original order; it sets the slots
s .. n-1 of the backing array to nil, so that every slot at or beyond the new
length is nil; the capacity, the lastSeen map, the pending-job channel, the
outstanding-job counter and the goroutines are unchanged. -/
theorem Resize_shrink_spec (q : queue) (ws : List Nat) (s : Nat)
    (hwf : workersWellFormed q) (hws : q.workers.toList = ws.map some)
    (h1 : 1 ≤ s) (h2 : s < ws.length) (h3 : s ≤ 255) :
    ∃ q1, Resize q (s : Int) = some q1 ∧
      q1.closed = q.closed ++ ws.take (ws.length - s) ∧
      q1.workers.toList = (ws.drop (ws.length - s)).map some ∧
      q1.workers.len = s ∧
      q1.workers.arr.length = q.workers.arr.length ∧
      (∀ i, s ≤ i → i < ws.length → q1.workers.arr[i]? = some none) ∧
      (∀ i, s ≤ i → i < q1.workers.arr.length → q1.workers.arr[i]? = some none) ∧
      q1.lastSeen = q.lastSeen ∧ q1.jobs = q.jobs ∧ q1.jobsCap = q.jobsCap ∧
      q1.jobGroup = q.jobGroup ∧ q1.sending = q.sending ∧
      q1.goroutines = q.goroutines ∧ q1.spawning = q.spawning ∧
      q1.workerGroup = q.workerGroup ∧ workersWellFormed q1 := by
  have hwf0 := hwf
  obtain ⟨hlen, htail, _, ws0, hws0, hnd, hfresh⟩ := hwf
  have hinj : ws0 = ws := by
    have hm : ws0.map some = ws.map some := by rw [← hws0, hws]
    exact List.map_injective_iff.2 (Option.some_injective _) hm
  subst hinj
  have hwl : ws0.length = q.workers.len := by
    rw [← toList_length q.workers hlen, hws, List.length_map]
  have hcap : resizeCap (s : Int) = (s : Int) := by
    unfold resizeCap maxParallelity
    rw [if_neg (by omega), if_neg (by omega)]
  have hres := Resize_shrink q (s : Int) ws0 (by rw [hcap]; omega)
    (by rw [hcap]; simp only [Int.toNat_ofNat]; omega) hws hnd (fun c hc => (hfresh c hc).1)
  simp only [hcap, Int.toNat_ofNat] at hres
  obtain ⟨s1, s2, s3, s4⟩ := shrink_array q.workers.arr q.workers.len s (by omega) hlen
  refine ⟨_, hres, ?_, ?_, rfl, ?_, ?_, ?_, rfl, rfl, rfl, rfl, rfl, rfl, rfl, rfl,
    workersWellFormed_Resize q _ (s : Int) hwf0 hres⟩
  · simp only [hwl]
  · simp only [Slice.toList] at hws ⊢
    rw [s2, hws, List.map_drop, hwl]
  · simp only [Slice.toList]
    exact s1
  · intro i hi1 hi2
    simp only [Slice.toList]
    exact s3 i hi1 (by omega)
  · intro i hi1 hi2
    simp only [Slice.toList] at hi2 ⊢
    rw [s1] at hi2
    by_cases hi3 : i < q.workers.len
    · exact s3 i hi1 hi3
    · rw [s4 i (by omega)]
      exact htail i (by omega) hi2

/-- Witness for C10: NewQueue(5), whose handles are 0, ..., 4, resized to 3. -/
theorem Resize_shrink_spec_witness :
    ∃ q1, Resize (NewQueue 5) ((3 : Nat) : Int) = some q1 ∧
      q1.closed = (NewQueue 5).closed ++ [0, 1] ∧
      q1.workers.toList = [some 2, some 3, some 4] :=
  (Resize_shrink_spec (NewQueue 5) [0, 1, 2, 3, 4] 3 (workersWellFormed_NewQueue 5)
    (by decide) (by decide) (by decide) (by decide)).imp
    (fun _ h => ⟨h.1, h.2.1, h.2.2.1⟩)

end Zackup
